import Mathlib

/-!
Shallow embedding of the deterministic core of `src/index.tsx`:
the smart subtitle segmentation and playback-timing engine, the
audio duration estimator, the WAV header writer, and the
active-caption lookup.

Design of the embedding:
* JS strings are modelled as `List Char`.  JS `.length` counts UTF-16
  code units while `List.length` counts code points; the two agree on
  all characters below U+10000, and nothing in the claims depends on
  astral-plane characters.
* JS floating-point numbers are modelled by exact rationals `ℚ`.
  The only arithmetic performed is `+`, `*` and `/`; exact-rational
  results make the floating-point tolerance statements decidable.
  Lean's `x / 0 = 0` convention differs from the JS result `NaN`;
  every statement that touches the `totalChars = 0` case is phrased
  so that it does not depend on that convention.
* Machine integers written by `DataView.setUint32`/`setUint16` are
  modelled as `Nat` with explicit `% 2 ^ 32` / `% 2 ^ 16` where the
  JS coercion wraps.
-/

/-- Character code 32, the space character. -/
def spaceChar : Char := Char.ofNat 32

/-- Models the JS regex class `\s` on the characters that occur in this
program's data: tab (9), line feed (10), vertical tab (11), form feed
(12), carriage return (13) and space (32).  The remaining Unicode
whitespace code points also matched by `\s` are immaterial to the
claims and omitted. -/
def isWsChar (c : Char) : Bool :=
  c = Char.ofNat 9 || c = Char.ofNat 10 || c = Char.ofNat 11 ||
  c = Char.ofNat 12 || c = Char.ofNat 13 || c = spaceChar

/-- Helper for `splitWs`: accumulates the current (reversed) token. -/
def splitWsAux : List Char → List Char → List (List Char)
  | [], acc => if acc = [] then [] else [acc.reverse]
  | c :: cs, acc =>
      if isWsChar c then
        if acc = [] then splitWsAux cs [] else acc.reverse :: splitWsAux cs []
      else splitWsAux cs (c :: acc)

/-- Maximal runs of non-whitespace characters of a string, in order.
`fullText.replace(/\s+/g, ' ').trim()` is exactly these runs joined by
single spaces (see `cleanText`). -/
def splitWs (s : List Char) : List (List Char) := splitWsAux s []

/-- Models `array.join(' ')` on a list of strings. -/
def joinWords : List (List Char) → List Char
  | [] => []
  | [w] => w
  | w :: ws => w ++ spaceChar :: joinWords ws

/-- Models `fullText.replace(/\s+/g, ' ').trim()` from
`createSmartSubtitles`: whitespace runs collapsed to single spaces and
ends trimmed, i.e. the whitespace-delimited tokens joined by single
spaces. -/
def cleanText (s : List Char) : List Char := joinWords (splitWs s)

/-- Models `cleanText.split(' ')`.  Since `cleanText` has no leading,
trailing or doubled spaces, this is the token list itself, except that
JS `''.split(' ')` is `['']`, one empty word. -/
def wordsOf (s : List Char) : List (List Char) :=
  if splitWs s = [] then [[]] else splitWs s

/-- Models the regex test `/[.!?]$/.test(word)`: the word ends in a
full stop (46), an exclamation mark (33) or a question mark (63). -/
def endsPunct (w : List Char) : Bool :=
  match w.getLast? with
  | some c => c = Char.ofNat 46 || c = Char.ofNat 33 || c = Char.ofNat 63
  | none => false

/-- Models the chunking pass of `createSmartSubtitles`: the
`words.forEach` loop followed by the final
`if (currentChunk.length > 0) chunks.push(currentChunk.join(' '))`.
First argument: words still to process; second: chunks pushed so far;
third: the `currentChunk` accumulator. -/
def chunkLoop : List (List Char) → List (List Char) → List (List Char) → List (List Char)
  | [], chunks, cur => if cur = [] then chunks else chunks ++ [joinWords cur]
  | w :: ws, chunks, cur =>
      let cur' := cur ++ [w]
      let s := joinWords cur'
      if (25 < s.length || endsPunct w) && 2 ≤ cur'.length then
        chunkLoop ws (chunks ++ [s]) []
      else if 6 ≤ cur'.length then
        chunkLoop ws (chunks ++ [s]) []
      else
        chunkLoop ws chunks cur'

/-- Chunk list produced by `createSmartSubtitles` for a given input
text, before timing is assigned. -/
def chunksOf (s : List Char) : List (List Char) :=
  chunkLoop (wordsOf s) [] []

/-- Caption segment record of `src/index.tsx` (`SubtitleSegment`).
The source field `end` is a Lean keyword and is named `endTime` here. -/
structure SubtitleSegment where
  text : List Char
  start : ℚ
  endTime : ℚ
  deriving DecidableEq, Repr

/-- Models the `chunks.map` pass of `createSmartSubtitles`: walks the
chunks with the running `currentTime` accumulator `t`, assigning each
chunk the window `[t, t + (chunk.length / totalChars) * totalDuration)`. -/
def mkSegments : List (List Char) → ℕ → ℚ → ℚ → List SubtitleSegment
  | [], _, _, _ => []
  | c :: cs, totalChars, totalDuration, t =>
      let duration := ((c.length : ℚ) / (totalChars : ℚ)) * totalDuration
      ⟨c, t, t + duration⟩ :: mkSegments cs totalChars totalDuration (t + duration)

/-- Models `createSmartSubtitles(fullText, totalDuration)` from
`src/index.tsx` (lines 188-228). -/
def createSmartSubtitles (fullText : List Char) (totalDuration : ℚ) : List SubtitleSegment :=
  mkSegments (chunksOf fullText) (cleanText fullText).length totalDuration 0

/-- Models `getCurrentSubtitle` from `src/index.tsx` (lines 654-661),
as a function of the subtitle list and the current playback time.  The
JS guard `!currentTime` is true exactly when `currentTime` is `0`
(or `NaN`, which has no rational counterpart); the `!videoData?.subtitles`
guard corresponds to the empty list, on which `find?` already yields
no caption. -/
def getCurrentSubtitle (subtitles : List SubtitleSegment) (currentTime : ℚ) : List Char :=
  if currentTime = 0 then []
  else
    match subtitles.find? (fun seg => decide (seg.start ≤ currentTime ∧ currentTime ≤ seg.endTime)) with
    | some seg => seg.text
    | none => []

/-- Models the duration computation of `generateClip` (lines 824-832):
`audioDurationSeconds = pcmData.length / 48000`, the byte count of the
raw PCM payload divided by 48000. -/
def audioDurationSeconds (sampleByteLength : ℕ) : ℚ :=
  (sampleByteLength : ℚ) / 48000

/-- Overwrites the bytes of `buf` starting at offset `off` with `vs`.
Models a sequence of in-bounds `DataView.setUint8` stores; every write
performed by `createWavHeader` lies inside the 44-byte buffer. -/
def overwrite (buf : List ℕ) (off : ℕ) (vs : List ℕ) : List ℕ :=
  buf.take off ++ vs ++ buf.drop (off + vs.length)

/-- Little-endian byte quadruple stored by `DataView.setUint32(off, v, true)`.
The JS coercion reduces `v` modulo `2 ^ 32`; the four extracted bytes
below are exactly the bytes of `v % 2 ^ 32`. -/
def u32le (v : ℕ) : List ℕ :=
  [v % 256, v / 256 % 256, v / 65536 % 256, v / 16777216 % 256]

/-- Little-endian byte pair stored by `DataView.setUint16(off, v, true)`. -/
def u16le (v : ℕ) : List ℕ :=
  [v % 256, v / 256 % 256]

/-- Models `writeString(view, off, s)` (lines 147-151): the sequence of
`charCodeAt` byte values stored by the loop of `setUint8` calls.  The
four strings written are ASCII, where `charCodeAt` is `Char.toNat`. -/
def writeStringBytes (s : String) : List ℕ :=
  s.toList.map Char.toNat

/-- Models `createWavHeader(dataLength, sampleRate, numChannels,
bitsPerSample)` from `src/index.tsx` (lines 153-185) as the final
contents of the 44-byte header buffer.  The source defaults are
`sampleRate = 24000`, `numChannels = 1`, `bitsPerSample = 16`.
`bitsPerSample / 8` is exact for the only value used (16). -/
def createWavHeader (dataLength : ℕ) (sampleRate : ℕ) (numChannels : ℕ)
    (bitsPerSample : ℕ) : List ℕ :=
  let h0 := List.replicate 44 0
  let h1 := overwrite h0 0 (writeStringBytes ("RIFF"))
  let h2 := overwrite h1 4 (u32le (36 + dataLength))
  let h3 := overwrite h2 8 (writeStringBytes ("WAVE"))
  let h4 := overwrite h3 12 (writeStringBytes ("fmt "))
  let h5 := overwrite h4 16 (u32le 16)
  let h6 := overwrite h5 20 (u16le 1)
  let h7 := overwrite h6 22 (u16le numChannels)
  let h8 := overwrite h7 24 (u32le sampleRate)
  let h9 := overwrite h8 28 (u32le (sampleRate * numChannels * (bitsPerSample / 8)))
  let h10 := overwrite h9 32 (u16le (numChannels * (bitsPerSample / 8)))
  let h11 := overwrite h10 34 (u16le bitsPerSample)
  let h12 := overwrite h11 36 (writeStringBytes ("data"))
  overwrite h12 40 (u32le dataLength)

/-- Reads the unsigned 32-bit little-endian value stored at offset
`off` of a byte buffer. -/
def readU32le (buf : List ℕ) (off : ℕ) : ℕ :=
  buf.getD off 0 + 256 * buf.getD (off + 1) 0 +
  65536 * buf.getD (off + 2) 0 + 16777216 * buf.getD (off + 3) 0

/-- Helper for `splitSp`: accumulates the current (reversed) field. -/
def splitSpAux : List Char → List Char → List (List Char)
  | [], acc => [acc.reverse]
  | c :: cs, acc =>
      if c = spaceChar then acc.reverse :: splitSpAux cs []
      else splitSpAux cs (c :: acc)

/-- Models JS `s.split(' ')`: the string cut at every single space
(empty fields preserved, `''.split(' ') = ['']`). -/
def splitSp (s : List Char) : List (List Char) := splitSpAux s []

/-- Word count of a caption chunk: the number of fields of
`chunk.split(' ')`.  On the chunks built by `chunkLoop` (words joined
by single spaces) this recovers the number of joined words. -/
def wordCount (s : List Char) : ℕ := (splitSp s).length

/-- Ghost variant of `chunkLoop` that records each chunk as its word
list instead of its joined string.  Its branch conditions are
literally those of `chunkLoop`, so the two runs stay in lock step
(`chunkLoop_eq_ghost`); it exists only to let proofs speak about the
word structure of the chunks. -/
def chunkLoopG : List (List Char) → List (List (List Char)) → List (List Char) →
    List (List (List Char))
  | [], chunks, cur => if cur = [] then chunks else chunks ++ [cur]
  | w :: ws, chunks, cur =>
      let cur' := cur ++ [w]
      let s := joinWords cur'
      if (25 < s.length || endsPunct w) && 2 ≤ cur'.length then
        chunkLoopG ws (chunks ++ [cur']) []
      else if 6 ≤ cur'.length then
        chunkLoopG ws (chunks ++ [cur']) []
      else
        chunkLoopG ws chunks cur'

/-- Word-level chunk groups of the input text (ghost view of
`chunksOf`). -/
def chunkGroupsOf (s : List Char) : List (List (List Char)) :=
  chunkLoopG (wordsOf s) [] []

/-- Modelled from the spec wording of the chunk-closing rule (§4.2
step 3): after appending each word, a **natural break** closes the
chunk when it already contains at least 2 words AND (its joined length
exceeds 25 characters OR the just-appended word ends in `.`, `!` or
`?`); otherwise a **forced break** closes it when it has reached
exactly 6 words; closing appends the joined string to the output and
resets the accumulator (step 4 closes a non-empty trailing
accumulator). -/
def chunkLoopSpec : List (List Char) → List (List Char) → List (List Char) → List (List Char)
  | [], chunks, cur => if cur = [] then chunks else chunks ++ [joinWords cur]
  | w :: ws, chunks, cur =>
      let cur' := cur ++ [w]
      let naturalBreak := 2 ≤ cur'.length ∧ (25 < (joinWords cur').length ∨ endsPunct w = true)
      if naturalBreak then chunkLoopSpec ws (chunks ++ [joinWords cur']) []
      else if cur'.length = 6 then chunkLoopSpec ws (chunks ++ [joinWords cur']) []
      else chunkLoopSpec ws chunks cur'

/-- Chunk list as described by the spec's words (to be compared with
the source-derived `chunksOf`). -/
def chunksSpecOf (s : List Char) : List (List Char) :=
  chunkLoopSpec (wordsOf s) [] []

/-- Concrete narration text used as a test vector below. -/
def exText : List Char := "Hi there. Bye.".toList

/-- Concrete whitespace-only narration text used as a test vector below. -/
def exBlank : List Char := "   ".toList

/-- Concrete segment list used as a test vector for the caption lookup:
segment A covers `[0, 1]` and segment B covers `[1, 2]`. -/
def exSegs : List SubtitleSegment :=
  [⟨"A".toList, 0, 1⟩, ⟨"B".toList, 1, 2⟩]

section Lemmas

/-- Unfolding lemma: joining a one-element list. -/
theorem joinWords_singleton (w : List Char) : joinWords [w] = w := rfl

/-- Unfolding lemma: joining a list with at least two elements. -/
theorem joinWords_cons_cons (w v : List Char) (ws : List (List Char)) :
    joinWords (w :: v :: ws) = w ++ spaceChar :: joinWords (v :: ws) := rfl

/-- Appending one more word to a non-empty accumulator adds a space
and the word to the joined string. -/
theorem joinWords_append_singleton (cur : List (List Char)) (w : List Char)
    (h : cur ≠ []) : joinWords (cur ++ [w]) = joinWords cur ++ spaceChar :: w := by
  induction cur with
  | nil => exact absurd rfl h
  | cons v vs ih =>
      cases vs with
      | nil => rfl
      | cons u us =>
          have := ih (by simp)
          simp only [List.cons_append, joinWords_cons_cons] at *
          simp [this]

/-- Merging two adjacent elements of a join into their space-joined
concatenation leaves the joined string unchanged. -/
theorem joinWords_merge (A : List (List Char)) (x y : List Char) (B : List (List Char)) :
    joinWords (A ++ (x ++ spaceChar :: y) :: B) = joinWords (A ++ x :: y :: B) := by
  induction A with
  | nil =>
      cases B with
      | nil => rfl
      | cons b bs => simp [joinWords_cons_cons]
  | cons a as ih =>
      cases as with
      | nil =>
          cases B with
          | nil => simp [joinWords_cons_cons, joinWords_singleton]
          | cons b bs => simp [joinWords_cons_cons]
      | cons a2 as2 => simp only [List.cons_append, joinWords_cons_cons] at *; simp [ih]

/-- Length of a joined word list: the word lengths plus one separator
per gap. -/
theorem joinWords_length (gs : List (List Char)) (h : gs ≠ []) :
    (joinWords gs).length = (gs.map List.length).sum + (gs.length - 1) := by
  induction gs with
  | nil => exact absurd rfl h
  | cons g gs ih =>
      cases gs with
      | nil => simp [joinWords]
      | cons g2 gs2 =>
          have := ih (by simp)
          simp only [joinWords_cons_cons, List.length_append, List.length_cons,
            List.map_cons, List.sum_cons, List.length_cons] at *
          omega

/-- Closing the accumulator as a chunk does not change the joined
string of the whole output-so-far. -/
theorem joinWords_push_aux (chunks cur : List (List Char)) (w : List Char)
    (ws : List (List Char)) :
    joinWords (chunks ++ [joinWords (cur ++ [w])] ++ ws) =
    joinWords (chunks ++ (if cur = [] then [] else [joinWords cur]) ++ (w :: ws)) := by
  by_cases h : cur = []
  · subst h; simp [joinWords_singleton]
  · rw [joinWords_append_singleton cur w h, if_neg h]
    simpa using joinWords_merge chunks (joinWords cur) w ws

/-- Invariant of the chunking loop: the joined string of the final
chunk list equals the joined string of (chunks so far, accumulator,
remaining words). -/
theorem chunkLoop_join : ∀ (ws chunks cur : List (List Char)),
    joinWords (chunkLoop ws chunks cur) =
    joinWords (chunks ++ (if cur = [] then [] else [joinWords cur]) ++ ws) := by
  intro ws
  induction ws with
  | nil => intro chunks cur; by_cases h : cur = [] <;> simp [chunkLoop, h]
  | cons w ws ih =>
      intro chunks cur
      simp only [chunkLoop]
      split
      · rw [ih]; simpa using joinWords_push_aux chunks cur w ws
      · split
        · rw [ih]; simpa using joinWords_push_aux chunks cur w ws
        · rw [ih, if_neg (by simp : ¬cur ++ [w] = [])]
          simpa using joinWords_push_aux chunks cur w ws

/-- Joining the JS word list of a text recovers the normalized text. -/
theorem joinWords_wordsOf (s : List Char) : joinWords (wordsOf s) = cleanText s := by
  unfold wordsOf cleanText
  split
  · rename_i h; rw [h]; rfl
  · rfl

/-- Joining the chunk list of a text recovers the normalized text. -/
theorem chunksOf_join (s : List Char) : joinWords (chunksOf s) = cleanText s := by
  unfold chunksOf
  rw [chunkLoop_join]
  simpa using joinWords_wordsOf s

/-- Timing assignment preserves the chunk texts, in order. -/
theorem mkSegments_map_text : ∀ (cs : List (List Char)) (T : ℕ) (d t : ℚ),
    (mkSegments cs T d t).map SubtitleSegment.text = cs := by
  intro cs
  induction cs with
  | nil => intro T d t; rfl
  | cons c cs ih => intro T d t; simp [mkSegments, ih]

/-- Segments are emitted contiguously: each segment's end is the next
segment's start, by construction of the running accumulator. -/
theorem mkSegments_chain (cs : List (List Char)) (T : ℕ) (d : ℚ) :
    ∀ t, List.Chain' (fun a b => a.endTime = b.start) (mkSegments cs T d t) := by
  induction cs with
  | nil => intro t; simp [mkSegments]
  | cons c cs ih =>
      intro t
      cases cs with
      | nil => simp [mkSegments]
      | cons c2 cs2 =>
          refine List.Chain'.cons ?_ (ih _)
          rfl

/-- Every emitted segment window is non-degenerate when the total
duration is non-negative: its start does not exceed its end. -/
theorem mkSegments_start_le_end (cs : List (List Char)) (T : ℕ) (d : ℚ) (hd : 0 ≤ d) :
    ∀ t, ∀ seg ∈ mkSegments cs T d t, seg.start ≤ seg.endTime := by
  induction cs with
  | nil => intro t seg h; simp [mkSegments] at h
  | cons c cs ih =>
      intro t seg h
      simp only [mkSegments, List.mem_cons] at h
      rcases h with h | h
      · subst h
        have : 0 ≤ ((c.length : ℚ) / (T : ℚ)) * d :=
          mul_nonneg (div_nonneg (Nat.cast_nonneg _) (Nat.cast_nonneg _)) hd
        simpa using this
      · exact ih _ seg h

/-- The last emitted segment ends at the start time plus the sum of
all chunk durations. -/
theorem mkSegments_getLast : ∀ (cs : List (List Char)) (T : ℕ) (d t : ℚ), cs ≠ [] →
    ∃ seg, (mkSegments cs T d t).getLast? = some seg ∧
      seg.endTime = t + (cs.map (fun c => ((c.length : ℚ) / (T : ℚ)) * d)).sum := by
  intro cs
  induction cs with
  | nil => intro T d t h; exact absurd rfl h
  | cons c cs ih =>
      intro T d t _
      cases cs with
      | nil =>
          refine ⟨_, rfl, ?_⟩
          simp [mkSegments]
      | cons c2 cs2 =>
          obtain ⟨seg, hlast, hend⟩ := ih T d (t + ((c.length : ℚ) / (T : ℚ)) * d) (by simp)
          refine ⟨seg, Eq.trans List.getLast?_cons_cons hlast, ?_⟩
          rw [hend]; simp [List.sum_cons]; ring

/-- Sum of the per-chunk durations, rewritten over a common
denominator: it is the total chunk length over `T`, times `d`. -/
theorem sum_durations (cs : List (List Char)) (T : ℕ) (d : ℚ) :
    (cs.map (fun c => ((c.length : ℚ) / (T : ℚ)) * d)).sum =
    ((cs.map (fun c => (c.length : ℚ))).sum / (T : ℚ)) * d := by
  induction cs with
  | nil => simp
  | cons c cs ih => simp [List.sum_cons, ih]; ring

/-- The chunking loop never returns the empty list when it starts from
a non-empty word list. -/
theorem chunkLoop_ne_nil : ∀ (ws chunks cur : List (List Char)),
    chunks ≠ [] ∨ cur ≠ [] ∨ ws ≠ [] → chunkLoop ws chunks cur ≠ [] := by
  intro ws
  induction ws with
  | nil =>
      intro chunks cur h
      simp only [chunkLoop]
      split
      · rename_i hcur
        rcases h with h | h | h
        · exact h
        · exact absurd hcur h
        · exact absurd rfl h
      · simp
  | cons w ws ih =>
      intro chunks cur _
      simp only [chunkLoop]
      split
      · exact ih _ _ (Or.inl (by simp))
      · split
        · exact ih _ _ (Or.inl (by simp))
        · exact ih _ _ (Or.inr (Or.inl (by simp)))

/-- Every token produced by the whitespace splitter is non-empty and
contains no whitespace character. -/
theorem splitWsAux_tokens : ∀ (s acc : List Char),
    (∀ c ∈ acc, isWsChar c = false) →
    ∀ t ∈ splitWsAux s acc, t ≠ [] ∧ ∀ c ∈ t, isWsChar c = false := by
  intro s
  induction s with
  | nil =>
      intro acc hacc t ht
      simp only [splitWsAux] at ht
      split at ht
      · simp at ht
      · rename_i hne
        simp only [List.mem_singleton] at ht
        subst ht
        exact ⟨by simpa using hne, fun c hc => hacc c (by simpa using hc)⟩
  | cons c cs ih =>
      intro acc hacc t ht
      simp only [splitWsAux] at ht
      split at ht
      · rename_i hws
        split at ht
        · exact ih [] (by simp) t ht
        · rename_i hne
          rcases List.mem_cons.mp ht with h | h
          · subst h
            exact ⟨by simpa using hne, fun d hd => hacc d (by simpa using hd)⟩
          · exact ih [] (by simp) t h
      · rename_i hws
        refine ih (c :: acc) ?_ t ht
        intro d hd
        rcases List.mem_cons.mp hd with h | h
        · subst h; simpa using hws
        · exact hacc d h

/-- Tokens of the whitespace splitter, specialised to `splitWs`. -/
theorem splitWs_tokens (s : List Char) :
    ∀ t ∈ splitWs s, t ≠ [] ∧ ∀ c ∈ t, isWsChar c = false :=
  splitWsAux_tokens s [] (by simp)

/-- A text whose normalization is empty has no whitespace-delimited
tokens at all. -/
theorem splitWs_of_cleanText_nil (s : List Char) (h : cleanText s = []) :
    splitWs s = [] := by
  by_contra hne
  obtain ⟨t, rest, hts⟩ : ∃ t rest, splitWs s = t :: rest := by
    cases hsp : splitWs s with
    | nil => exact absurd hsp hne
    | cons t rest => exact ⟨t, rest, rfl⟩
  have htok := (splitWs_tokens s t (by rw [hts]; simp)).1
  unfold cleanText at h
  rw [hts] at h
  cases rest with
  | nil => exact htok (by simpa [joinWords_singleton] using h)
  | cons r rs =>
      rw [joinWords_cons_cons] at h
      simp at h

/-- The ghost chunker mirrors the source chunker: mapping `joinWords`
over its groups yields exactly the source's chunk strings. -/
theorem chunkLoop_eq_ghost : ∀ (ws : List (List Char)) (gchunks : List (List (List Char)))
    (cur : List (List Char)),
    chunkLoop ws (gchunks.map joinWords) cur = (chunkLoopG ws gchunks cur).map joinWords := by
  intro ws
  induction ws with
  | nil =>
      intro gchunks cur
      simp only [chunkLoop, chunkLoopG]
      split <;> simp
  | cons w ws ih =>
      intro gchunks cur
      simp only [chunkLoop, chunkLoopG]
      split
      · rw [show (gchunks.map joinWords) ++ [joinWords (cur ++ [w])] =
            (gchunks ++ [cur ++ [w]]).map joinWords by simp]
        exact ih _ _
      · split
        · rw [show (gchunks.map joinWords) ++ [joinWords (cur ++ [w])] =
              (gchunks ++ [cur ++ [w]]).map joinWords by simp]
          exact ih _ _
        · exact ih _ _

/-- Ghost view of the chunk list of a text. -/
theorem chunksOf_eq_ghost (s : List Char) :
    chunksOf s = (chunkGroupsOf s).map joinWords := by
  simpa using chunkLoop_eq_ghost (wordsOf s) [] []

/-- The ghost chunker partitions its input: flattening the produced
groups yields (chunks so far, accumulator, remaining words). -/
theorem chunkLoopG_flatten : ∀ (ws : List (List Char)) (gchunks : List (List (List Char)))
    (cur : List (List Char)),
    (chunkLoopG ws gchunks cur).flatten = gchunks.flatten ++ cur ++ ws := by
  intro ws
  induction ws with
  | nil =>
      intro gchunks cur
      simp only [chunkLoopG]
      split
      · rename_i h; subst h; simp
      · simp
  | cons w ws ih =>
      intro gchunks cur
      simp only [chunkLoopG]
      split
      · rw [ih]; simp
      · split
        · rw [ih]; simp
        · rw [ih]; simp

/-- Word-count bounds of the ghost chunker: provided every group
closed so far has between 2 and 6 words and the accumulator holds at
most 5 words, every group of the result has between 1 and 6 words, and
every group except possibly the last has at least 2. -/
theorem chunkLoopG_bounds : ∀ (ws : List (List Char)) (gchunks : List (List (List Char)))
    (cur : List (List Char)),
    (∀ g ∈ gchunks, 2 ≤ g.length ∧ g.length ≤ 6) → cur.length ≤ 5 →
    (∀ g ∈ chunkLoopG ws gchunks cur, 1 ≤ g.length ∧ g.length ≤ 6) ∧
    (∀ g ∈ (chunkLoopG ws gchunks cur).dropLast, 2 ≤ g.length) := by
  intro ws
  induction ws with
  | nil =>
      intro gchunks cur hg hcur
      simp only [chunkLoopG]
      split
      · exact ⟨fun g h => ⟨by have := (hg g h).1; omega, (hg g h).2⟩,
          fun g h => (hg g ((List.dropLast_sublist gchunks).subset h)).1⟩
      · rename_i hne
        constructor
        · intro g h
          rcases List.mem_append.mp h with h | h
          · exact ⟨by have := (hg g h).1; omega, (hg g h).2⟩
          · simp only [List.mem_singleton] at h
            subst h
            have h1 : 0 < g.length := List.length_pos.mpr hne
            omega
        · intro g h
          rw [List.dropLast_concat] at h
          exact (hg g h).1
  | cons w ws ih =>
      intro gchunks cur hg hcur
      simp only [chunkLoopG]
      split
      · rename_i hcond
        refine ih _ [] ?_ (by simp)
        intro g h
        rcases List.mem_append.mp h with h | h
        · exact hg g h
        · simp only [List.mem_singleton] at h
          subst h
          simp only [Bool.and_eq_true, decide_eq_true_eq] at hcond
          refine ⟨hcond.2, ?_⟩
          simp only [List.length_append, List.length_singleton]
          omega
      · split
        · rename_i hcond
          refine ih _ [] ?_ (by simp)
          intro g h
          rcases List.mem_append.mp h with h | h
          · exact hg g h
          · simp only [List.mem_singleton] at h
            subst h
            simp only [decide_eq_true_eq, List.length_append,
              List.length_singleton] at hcond ⊢
            omega
        · rename_i hcond
          refine ih _ (cur ++ [w]) hg ?_
          simp only [decide_eq_true_eq, not_le, List.length_append,
            List.length_singleton] at hcond ⊢
          omega

/-- Scanning a space-free prefix just moves it into the accumulator. -/
theorem splitSpAux_append (w : List Char) : ∀ (rest acc : List Char),
    (∀ c ∈ w, c ≠ spaceChar) →
    splitSpAux (w ++ rest) acc = splitSpAux rest (w.reverse ++ acc) := by
  induction w with
  | nil => intro rest acc _; simp
  | cons c cs ih =>
      intro rest acc hw
      have hc : c ≠ spaceChar := hw c (by simp)
      simp only [List.cons_append, splitSpAux, if_neg hc, List.append_eq]
      rw [ih rest (c :: acc) (fun d hd => hw d (by simp [hd]))]
      simp

/-- Splitting a space-joined list of space-free words on spaces
recovers exactly the word list. -/
theorem splitSp_joinWords : ∀ (gs : List (List Char)), gs ≠ [] →
    (∀ w ∈ gs, ∀ c ∈ w, c ≠ spaceChar) → splitSp (joinWords gs) = gs := by
  intro gs
  induction gs with
  | nil => intro h _; exact absurd rfl h
  | cons w gs ih =>
      intro _ hfree
      cases gs with
      | nil =>
          show splitSpAux (joinWords [w]) [] = [w]
          rw [joinWords_singleton, show w = w ++ [] by simp,
            splitSpAux_append w [] [] (fun c hc => hfree w (by simp) c (by simpa using hc))]
          simp [splitSpAux]
      | cons v vs =>
          show splitSpAux (joinWords (w :: v :: vs)) [] = w :: v :: vs
          rw [joinWords_cons_cons,
            splitSpAux_append w (spaceChar :: joinWords (v :: vs)) []
              (fun c hc => hfree w (by simp) c hc)]
          simp only [splitSpAux, if_pos rfl]
          rw [List.append_nil, List.reverse_reverse]
          exact congrArg (w :: ·) (ih (by simp) (fun u hu => hfree u (by simp [hu])))

/-- Word count of a chunk built from space-free words: the number of
words joined into it. -/
theorem wordCount_joinWords (g : List (List Char)) (h : g ≠ [])
    (hfree : ∀ w ∈ g, ∀ c ∈ w, c ≠ spaceChar) : wordCount (joinWords g) = g.length := by
  unfold wordCount
  rw [splitSp_joinWords g h hfree]

/-- Every word fed into the chunker is space-free (tokens contain no
whitespace; the degenerate empty word has no characters at all). -/
theorem wordsOf_space_free (s : List Char) :
    ∀ w ∈ wordsOf s, ∀ c ∈ w, c ≠ spaceChar := by
  intro w hw c hc
  unfold wordsOf at hw
  split at hw
  · simp only [List.mem_singleton] at hw
    subst hw
    simp at hc
  · have := (splitWs_tokens s w hw).2 c hc
    intro hcs
    rw [hcs] at this
    simp [isWsChar, spaceChar] at this

/-- The source chunker agrees with the spec-worded chunker whenever
the accumulator holds at most 5 words (as it always does). -/
theorem chunkLoop_eq_spec : ∀ (ws chunks cur : List (List Char)), cur.length ≤ 5 →
    chunkLoop ws chunks cur = chunkLoopSpec ws chunks cur := by
  intro ws
  induction ws with
  | nil => intro chunks cur _; rfl
  | cons w ws ih =>
      intro chunks cur hcur
      simp only [chunkLoop, chunkLoopSpec]
      by_cases hnat : 2 ≤ (cur ++ [w]).length ∧ (25 < (joinWords (cur ++ [w])).length ∨ endsPunct w = true)
      · rw [if_pos hnat,
          if_pos (show ((decide (25 < (joinWords (cur ++ [w])).length) || endsPunct w) &&
            decide (2 ≤ (cur ++ [w]).length)) = true by
              simp only [Bool.and_eq_true, Bool.or_eq_true, decide_eq_true_eq]
              exact ⟨hnat.2.imp id id, hnat.1⟩)]
        exact ih _ [] (by simp)
      · rw [if_neg hnat,
          if_neg (show ¬((decide (25 < (joinWords (cur ++ [w])).length) || endsPunct w) &&
            decide (2 ≤ (cur ++ [w]).length)) = true by
              simp only [Bool.and_eq_true, Bool.or_eq_true, decide_eq_true_eq]
              intro hc
              exact hnat ⟨hc.2, hc.1.imp id id⟩)]
        have hlen : (cur ++ [w]).length = cur.length + 1 := by simp
        by_cases h6 : 6 ≤ (cur ++ [w]).length
        · rw [if_pos h6, if_pos (show (cur ++ [w]).length = 6 by omega)]
          exact ih _ [] (by simp)
        · rw [if_neg h6, if_neg (show ¬(cur ++ [w]).length = 6 by omega)]
          exact ih _ (cur ++ [w]) (by omega)

/-- First-match characterization of `List.find?`: either no element
satisfies the predicate, or the result is the first satisfying
element. -/
theorem find?_first_match {α : Type} (p : α → Bool) :
    ∀ l : List α,
      (l.find? p = none ∧ ∀ x ∈ l, p x = false) ∨
      (∃ i, ∃ h : i < l.length, p (l.get ⟨i, h⟩) = true ∧
        l.find? p = some (l.get ⟨i, h⟩) ∧
        ∀ j (hj : j < l.length), j < i → p (l.get ⟨j, hj⟩) = false) := by
  intro l
  induction l with
  | nil => left; simp
  | cons a l ih =>
      by_cases ha : p a = true
      · right
        exact ⟨0, by simp, by simpa using ha, by simp [List.find?_cons, ha],
          fun j hj hji => absurd hji (by omega)⟩
      · have ha2 : p a = false := by simpa using ha
        rcases ih with ⟨hnone, hall⟩ | ⟨i, h, hp, hfind, hfirst⟩
        · left
          refine ⟨by simp [List.find?_cons, ha2, hnone], ?_⟩
          intro x hx
          rcases List.mem_cons.mp hx with h | h
          · subst h; exact ha2
          · exact hall x h
        · right
          refine ⟨i + 1, by simpa using Nat.succ_lt_succ h, ?_, ?_, ?_⟩
          · simpa using hp
          · simpa [List.find?_cons, ha2] using hfind
          · intro j hj hji
            cases j with
            | zero => simpa using ha2
            | succ j =>
                have hji2 : j < i := by omega
                simpa using hfirst j (by simpa using Nat.lt_of_succ_lt_succ hj) hji2

/-- Byte-level evaluation of the WAV header under the source's default
format parameters (24000 Hz, mono, 16-bit), with the data length left
symbolic. -/
theorem createWavHeader_default_eq (n : ℕ) :
    createWavHeader n 24000 1 16 =
    [82, 73, 70, 70, (36 + n) % 256, (36 + n) / 256 % 256, (36 + n) / 65536 % 256, (36 + n) / 16777216 % 256, 87, 65, 86, 69, 102, 109, 116, 32, 16, 0, 0, 0, 1, 0, 1, 0, 192, 93, 0, 0, 128, 187, 0, 0, 2, 0, 16, 0, 100, 97, 116, 97, n % 256, n / 256 % 256, n / 65536 % 256, n / 16777216 % 256] := by
  have e1 : overwrite (List.replicate 44 0) 0 (writeStringBytes ("RIFF")) =
      [82, 73, 70, 70, 0, 0, 0, 0, 0, 0, 0, 0, 0, 0, 0, 0, 0, 0, 0, 0, 0, 0, 0, 0, 0, 0, 0, 0, 0, 0, 0, 0, 0, 0, 0, 0, 0, 0, 0, 0, 0, 0, 0, 0] := rfl
  have e2 : overwrite [82, 73, 70, 70, 0, 0, 0, 0, 0, 0, 0, 0, 0, 0, 0, 0, 0, 0, 0, 0, 0, 0, 0, 0, 0, 0, 0, 0, 0, 0, 0, 0, 0, 0, 0, 0, 0, 0, 0, 0, 0, 0, 0, 0] 4 (u32le (36 + n)) =
      [82, 73, 70, 70, (36 + n) % 256, (36 + n) / 256 % 256, (36 + n) / 65536 % 256, (36 + n) / 16777216 % 256, 0, 0, 0, 0, 0, 0, 0, 0, 0, 0, 0, 0, 0, 0, 0, 0, 0, 0, 0, 0, 0, 0, 0, 0, 0, 0, 0, 0, 0, 0, 0, 0, 0, 0, 0, 0] := rfl
  have e3 : overwrite [82, 73, 70, 70, (36 + n) % 256, (36 + n) / 256 % 256, (36 + n) / 65536 % 256, (36 + n) / 16777216 % 256, 0, 0, 0, 0, 0, 0, 0, 0, 0, 0, 0, 0, 0, 0, 0, 0, 0, 0, 0, 0, 0, 0, 0, 0, 0, 0, 0, 0, 0, 0, 0, 0, 0, 0, 0, 0] 8 (writeStringBytes ("WAVE")) =
      [82, 73, 70, 70, (36 + n) % 256, (36 + n) / 256 % 256, (36 + n) / 65536 % 256, (36 + n) / 16777216 % 256, 87, 65, 86, 69, 0, 0, 0, 0, 0, 0, 0, 0, 0, 0, 0, 0, 0, 0, 0, 0, 0, 0, 0, 0, 0, 0, 0, 0, 0, 0, 0, 0, 0, 0, 0, 0] := rfl
  have e4 : overwrite [82, 73, 70, 70, (36 + n) % 256, (36 + n) / 256 % 256, (36 + n) / 65536 % 256, (36 + n) / 16777216 % 256, 87, 65, 86, 69, 0, 0, 0, 0, 0, 0, 0, 0, 0, 0, 0, 0, 0, 0, 0, 0, 0, 0, 0, 0, 0, 0, 0, 0, 0, 0, 0, 0, 0, 0, 0, 0] 12 (writeStringBytes ("fmt ")) =
      [82, 73, 70, 70, (36 + n) % 256, (36 + n) / 256 % 256, (36 + n) / 65536 % 256, (36 + n) / 16777216 % 256, 87, 65, 86, 69, 102, 109, 116, 32, 0, 0, 0, 0, 0, 0, 0, 0, 0, 0, 0, 0, 0, 0, 0, 0, 0, 0, 0, 0, 0, 0, 0, 0, 0, 0, 0, 0] := rfl
  have e5 : overwrite [82, 73, 70, 70, (36 + n) % 256, (36 + n) / 256 % 256, (36 + n) / 65536 % 256, (36 + n) / 16777216 % 256, 87, 65, 86, 69, 102, 109, 116, 32, 0, 0, 0, 0, 0, 0, 0, 0, 0, 0, 0, 0, 0, 0, 0, 0, 0, 0, 0, 0, 0, 0, 0, 0, 0, 0, 0, 0] 16 (u32le 16) =
      [82, 73, 70, 70, (36 + n) % 256, (36 + n) / 256 % 256, (36 + n) / 65536 % 256, (36 + n) / 16777216 % 256, 87, 65, 86, 69, 102, 109, 116, 32, 16, 0, 0, 0, 0, 0, 0, 0, 0, 0, 0, 0, 0, 0, 0, 0, 0, 0, 0, 0, 0, 0, 0, 0, 0, 0, 0, 0] := rfl
  have e6 : overwrite [82, 73, 70, 70, (36 + n) % 256, (36 + n) / 256 % 256, (36 + n) / 65536 % 256, (36 + n) / 16777216 % 256, 87, 65, 86, 69, 102, 109, 116, 32, 16, 0, 0, 0, 0, 0, 0, 0, 0, 0, 0, 0, 0, 0, 0, 0, 0, 0, 0, 0, 0, 0, 0, 0, 0, 0, 0, 0] 20 (u16le 1) =
      [82, 73, 70, 70, (36 + n) % 256, (36 + n) / 256 % 256, (36 + n) / 65536 % 256, (36 + n) / 16777216 % 256, 87, 65, 86, 69, 102, 109, 116, 32, 16, 0, 0, 0, 1, 0, 0, 0, 0, 0, 0, 0, 0, 0, 0, 0, 0, 0, 0, 0, 0, 0, 0, 0, 0, 0, 0, 0] := rfl
  have e7 : overwrite [82, 73, 70, 70, (36 + n) % 256, (36 + n) / 256 % 256, (36 + n) / 65536 % 256, (36 + n) / 16777216 % 256, 87, 65, 86, 69, 102, 109, 116, 32, 16, 0, 0, 0, 1, 0, 0, 0, 0, 0, 0, 0, 0, 0, 0, 0, 0, 0, 0, 0, 0, 0, 0, 0, 0, 0, 0, 0] 22 (u16le 1) =
      [82, 73, 70, 70, (36 + n) % 256, (36 + n) / 256 % 256, (36 + n) / 65536 % 256, (36 + n) / 16777216 % 256, 87, 65, 86, 69, 102, 109, 116, 32, 16, 0, 0, 0, 1, 0, 1, 0, 0, 0, 0, 0, 0, 0, 0, 0, 0, 0, 0, 0, 0, 0, 0, 0, 0, 0, 0, 0] := rfl
  have e8 : overwrite [82, 73, 70, 70, (36 + n) % 256, (36 + n) / 256 % 256, (36 + n) / 65536 % 256, (36 + n) / 16777216 % 256, 87, 65, 86, 69, 102, 109, 116, 32, 16, 0, 0, 0, 1, 0, 1, 0, 0, 0, 0, 0, 0, 0, 0, 0, 0, 0, 0, 0, 0, 0, 0, 0, 0, 0, 0, 0] 24 (u32le 24000) =
      [82, 73, 70, 70, (36 + n) % 256, (36 + n) / 256 % 256, (36 + n) / 65536 % 256, (36 + n) / 16777216 % 256, 87, 65, 86, 69, 102, 109, 116, 32, 16, 0, 0, 0, 1, 0, 1, 0, 192, 93, 0, 0, 0, 0, 0, 0, 0, 0, 0, 0, 0, 0, 0, 0, 0, 0, 0, 0] := rfl
  have e9 : overwrite [82, 73, 70, 70, (36 + n) % 256, (36 + n) / 256 % 256, (36 + n) / 65536 % 256, (36 + n) / 16777216 % 256, 87, 65, 86, 69, 102, 109, 116, 32, 16, 0, 0, 0, 1, 0, 1, 0, 192, 93, 0, 0, 0, 0, 0, 0, 0, 0, 0, 0, 0, 0, 0, 0, 0, 0, 0, 0] 28 (u32le (24000 * 1 * (16 / 8))) =
      [82, 73, 70, 70, (36 + n) % 256, (36 + n) / 256 % 256, (36 + n) / 65536 % 256, (36 + n) / 16777216 % 256, 87, 65, 86, 69, 102, 109, 116, 32, 16, 0, 0, 0, 1, 0, 1, 0, 192, 93, 0, 0, 128, 187, 0, 0, 0, 0, 0, 0, 0, 0, 0, 0, 0, 0, 0, 0] := rfl
  have e10 : overwrite [82, 73, 70, 70, (36 + n) % 256, (36 + n) / 256 % 256, (36 + n) / 65536 % 256, (36 + n) / 16777216 % 256, 87, 65, 86, 69, 102, 109, 116, 32, 16, 0, 0, 0, 1, 0, 1, 0, 192, 93, 0, 0, 128, 187, 0, 0, 0, 0, 0, 0, 0, 0, 0, 0, 0, 0, 0, 0] 32 (u16le (1 * (16 / 8))) =
      [82, 73, 70, 70, (36 + n) % 256, (36 + n) / 256 % 256, (36 + n) / 65536 % 256, (36 + n) / 16777216 % 256, 87, 65, 86, 69, 102, 109, 116, 32, 16, 0, 0, 0, 1, 0, 1, 0, 192, 93, 0, 0, 128, 187, 0, 0, 2, 0, 0, 0, 0, 0, 0, 0, 0, 0, 0, 0] := rfl
  have e11 : overwrite [82, 73, 70, 70, (36 + n) % 256, (36 + n) / 256 % 256, (36 + n) / 65536 % 256, (36 + n) / 16777216 % 256, 87, 65, 86, 69, 102, 109, 116, 32, 16, 0, 0, 0, 1, 0, 1, 0, 192, 93, 0, 0, 128, 187, 0, 0, 2, 0, 0, 0, 0, 0, 0, 0, 0, 0, 0, 0] 34 (u16le 16) =
      [82, 73, 70, 70, (36 + n) % 256, (36 + n) / 256 % 256, (36 + n) / 65536 % 256, (36 + n) / 16777216 % 256, 87, 65, 86, 69, 102, 109, 116, 32, 16, 0, 0, 0, 1, 0, 1, 0, 192, 93, 0, 0, 128, 187, 0, 0, 2, 0, 16, 0, 0, 0, 0, 0, 0, 0, 0, 0] := rfl
  have e12 : overwrite [82, 73, 70, 70, (36 + n) % 256, (36 + n) / 256 % 256, (36 + n) / 65536 % 256, (36 + n) / 16777216 % 256, 87, 65, 86, 69, 102, 109, 116, 32, 16, 0, 0, 0, 1, 0, 1, 0, 192, 93, 0, 0, 128, 187, 0, 0, 2, 0, 16, 0, 0, 0, 0, 0, 0, 0, 0, 0] 36 (writeStringBytes ("data")) =
      [82, 73, 70, 70, (36 + n) % 256, (36 + n) / 256 % 256, (36 + n) / 65536 % 256, (36 + n) / 16777216 % 256, 87, 65, 86, 69, 102, 109, 116, 32, 16, 0, 0, 0, 1, 0, 1, 0, 192, 93, 0, 0, 128, 187, 0, 0, 2, 0, 16, 0, 100, 97, 116, 97, 0, 0, 0, 0] := rfl
  have e13 : overwrite [82, 73, 70, 70, (36 + n) % 256, (36 + n) / 256 % 256, (36 + n) / 65536 % 256, (36 + n) / 16777216 % 256, 87, 65, 86, 69, 102, 109, 116, 32, 16, 0, 0, 0, 1, 0, 1, 0, 192, 93, 0, 0, 128, 187, 0, 0, 2, 0, 16, 0, 100, 97, 116, 97, 0, 0, 0, 0] 40 (u32le n) =
      [82, 73, 70, 70, (36 + n) % 256, (36 + n) / 256 % 256, (36 + n) / 65536 % 256, (36 + n) / 16777216 % 256, 87, 65, 86, 69, 102, 109, 116, 32, 16, 0, 0, 0, 1, 0, 1, 0, 192, 93, 0, 0, 128, 187, 0, 0, 2, 0, 16, 0, 100, 97, 116, 97, n % 256, n / 256 % 256, n / 65536 % 256, n / 16777216 % 256] := rfl
  simp only [createWavHeader]
  rw [e1, e2, e3, e4, e5, e6, e7, e8, e9, e10, e11, e12, e13]

/-- The JS word list of a text is never the empty list. -/
theorem wordsOf_ne_nil (s : List Char) : wordsOf s ≠ [] := by
  unfold wordsOf
  split
  · simp
  · rename_i h; exact h

/-- The chunk list of a text is never the empty list. -/
theorem chunksOf_ne_nil (s : List Char) : chunksOf s ≠ [] :=
  chunkLoop_ne_nil _ _ _ (Or.inr (Or.inr (wordsOf_ne_nil s)))

/-- Full evaluation of the segment list on the concrete test vector
`"Hi there. Bye."` with total duration 14. -/
theorem createSmartSubtitles_exText :
    createSmartSubtitles exText 14 =
    [⟨"Hi there.".toList, 0, 9⟩, ⟨"Bye.".toList, 9, 13⟩] := by
  have hc : chunksOf exText = ["Hi there.".toList, "Bye.".toList] := by decide
  have hT : (cleanText exText).length = 14 := by decide
  have h1 : ("Hi there.".toList).length = 9 := by decide
  have h2 : ("Bye.".toList).length = 4 := by decide
  unfold createSmartSubtitles
  rw [hc, hT]
  simp only [mkSegments, h1, h2]
  norm_num

end Lemmas

section Claims

/-- C1: the claim that for every non-empty normalized text and positive
duration the last segment's end equals the total duration within
tolerance `1e-6` is FALSE: on the text `"Hi there. Bye."` with
duration 14 the last segment ends at 13, a full second short, because
the spaces between chunks are counted in `totalChars` but in no
chunk's own length. -/
theorem C1_counterexample :
    cleanText exText ≠ [] ∧ (0 : ℚ) < 14 ∧
    (∃ seg, (createSmartSubtitles exText 14).getLast? = some seg ∧
      ¬|seg.endTime - 14| ≤ 1 / 1000000) := by
  refine ⟨by decide, by norm_num, ⟨⟨"Bye.".toList, 9, 13⟩, ?_, by norm_num⟩⟩
  rw [createSmartSubtitles_exText]
  rfl

/-- C1 (amended): for every text with non-empty normalization and
every positive duration, the last segment's end equals
`(S / totalChars) * totalDuration` exactly, where `S` is the sum of
the chunk lengths; moreover `S` falls short of `totalChars` by exactly
one character per chunk boundary, so the last end equals the total
duration only up to that deficit (not within `1e-6` in general). -/
theorem C1_amended_last_end (s : List Char) (d : ℚ) (h : cleanText s ≠ []) (hd : 0 < d) :
    ∃ seg, (createSmartSubtitles s d).getLast? = some seg ∧
      seg.endTime =
        (((chunksOf s).map (fun c => (c.length : ℚ))).sum / (((cleanText s).length : ℕ) : ℚ)) * d ∧
      ((chunksOf s).map List.length).sum + ((chunksOf s).length - 1) = (cleanText s).length := by
  obtain ⟨seg, hlast, hend⟩ :=
    mkSegments_getLast (chunksOf s) (cleanText s).length d 0 (chunksOf_ne_nil s)
  refine ⟨seg, hlast, ?_, ?_⟩
  · rw [hend, sum_durations]
    ring
  · have hlen := joinWords_length (chunksOf s) (chunksOf_ne_nil s)
    rw [chunksOf_join] at hlen
    omega

/-- C1 (amended) witness: instantiation on the concrete test vector. -/
theorem C1_amended_witness :
    ∃ seg, (createSmartSubtitles exText 14).getLast? = some seg ∧
      seg.endTime =
        (((chunksOf exText).map (fun c => (c.length : ℚ))).sum /
          (((cleanText exText).length : ℕ) : ℚ)) * 14 ∧
      ((chunksOf exText).map List.length).sum + ((chunksOf exText).length - 1) =
        (cleanText exText).length :=
  C1_amended_last_end exText 14 (by decide) (by norm_num)

/-- C2: evaluation of the code at the failing input.  On the empty
narration text, `createSmartSubtitles` performs no `totalChars = 0`
guard: it returns ONE segment (whose text is the empty string), not
the empty segment list the spec mandates.  (In JS its `start`/`end`
are `NaN` from the `0 / 0` division; the statements below are
independent of the division-by-zero convention.) -/
theorem C2_code_behavior :
    createSmartSubtitles [] 5 ≠ [] ∧
    (createSmartSubtitles [] 5).map SubtitleSegment.text = [[]] := by
  constructor
  · unfold createSmartSubtitles
    have hc : chunksOf [] = [[]] := by decide
    rw [hc]
    simp [mkSegments]
  · unfold createSmartSubtitles
    rw [mkSegments_map_text]
    decide

/-- C3: the claim that the inclusive first-match lookup rule holds for
every query time "including t=0" is FALSE: at `t = 0` the guard
`!currentTime` short-circuits, so even though the segment
`{A, 0, 1}` satisfies `start ≤ 0 ≤ end` and has non-empty text, the
lookup returns no caption. -/
theorem C3_counterexample :
    ((⟨"A".toList, 0, 1⟩ : SubtitleSegment).start ≤ 0 ∧
      (0 : ℚ) ≤ (⟨"A".toList, 0, 1⟩ : SubtitleSegment).endTime) ∧
    getCurrentSubtitle [⟨"A".toList, 0, 1⟩] 0 = [] ∧ "A".toList ≠ [] := by
  refine ⟨⟨le_refl 0, by norm_num⟩, ?_, by decide⟩
  simp [getCurrentSubtitle]

/-- C3 (amended): for every non-zero query time `t` the lookup returns
the text of the FIRST segment with `start ≤ t ≤ end` (both ends
inclusive), and no caption when no segment matches; at `t = 0` it
always returns no caption (the implementation's falsy-time guard). -/
theorem C3_amended_lookup (segs : List SubtitleSegment) (t : ℚ) (ht : t ≠ 0) :
    getCurrentSubtitle segs 0 = [] ∧
    (((∀ seg ∈ segs, ¬(seg.start ≤ t ∧ t ≤ seg.endTime)) ∧ getCurrentSubtitle segs t = []) ∨
     (∃ i, ∃ h : i < segs.length,
        ((segs.get ⟨i, h⟩).start ≤ t ∧ t ≤ (segs.get ⟨i, h⟩).endTime) ∧
        getCurrentSubtitle segs t = (segs.get ⟨i, h⟩).text ∧
        ∀ j (hj : j < segs.length), j < i →
          ¬((segs.get ⟨j, hj⟩).start ≤ t ∧ t ≤ (segs.get ⟨j, hj⟩).endTime))) := by
  constructor
  · simp [getCurrentSubtitle]
  · rcases find?_first_match (fun seg => decide (seg.start ≤ t ∧ t ≤ seg.endTime)) segs with
      ⟨hnone, hall⟩ | ⟨i, h, hp, hfind, hfirst⟩
    · left
      refine ⟨fun seg hs => by simpa using hall seg hs, ?_⟩
      unfold getCurrentSubtitle
      rw [if_neg ht, hnone]
    · right
      refine ⟨i, h, by simpa using hp, ?_, fun j hj hji => by simpa using hfirst j hj hji⟩
      unfold getCurrentSubtitle
      rw [if_neg ht, hfind]

/-- C3 (amended) witness: instantiation on the two-segment test vector
at `t = 1/2`, where the guard hypothesis holds. -/
theorem C3_amended_witness :
    getCurrentSubtitle exSegs 0 = [] ∧
    (((∀ seg ∈ exSegs, ¬(seg.start ≤ (1 / 2 : ℚ) ∧ (1 / 2 : ℚ) ≤ seg.endTime)) ∧
        getCurrentSubtitle exSegs (1 / 2) = []) ∨
     (∃ i, ∃ h : i < exSegs.length,
        ((exSegs.get ⟨i, h⟩).start ≤ (1 / 2 : ℚ) ∧ (1 / 2 : ℚ) ≤ (exSegs.get ⟨i, h⟩).endTime) ∧
        getCurrentSubtitle exSegs (1 / 2) = (exSegs.get ⟨i, h⟩).text ∧
        ∀ j (hj : j < exSegs.length), j < i →
          ¬((exSegs.get ⟨j, hj⟩).start ≤ (1 / 2 : ℚ) ∧ (1 / 2 : ℚ) ≤ (exSegs.get ⟨j, hj⟩).endTime))) :=
  C3_amended_lookup exSegs (1 / 2) (by norm_num)

/-- C4: concatenating the texts of all returned segments, in order,
with single spaces reproduces the whitespace-normalized input text
exactly. -/
theorem C4_text_preservation (s : List Char) (d : ℚ) (h : cleanText s ≠ []) :
    joinWords ((createSmartSubtitles s d).map SubtitleSegment.text) = cleanText s := by
  unfold createSmartSubtitles
  rw [mkSegments_map_text, chunksOf_join]

/-- C4 witness: instantiation on the concrete test vector. -/
theorem C4_witness :
    joinWords ((createSmartSubtitles exText 5).map SubtitleSegment.text) = cleanText exText :=
  C4_text_preservation exText 5 (by decide)

/-- C5: for non-empty normalized text and positive duration the
returned segments are contiguous (each segment's end equals the next
segment's start, exactly) and each window is non-degenerate
(`start ≤ end`); together these give monotonically non-decreasing
start and end times. -/
theorem C5_contiguous (s : List Char) (d : ℚ) (h : cleanText s ≠ []) (hd : 0 < d) :
    List.Chain' (fun a b => a.endTime = b.start) (createSmartSubtitles s d) ∧
    ∀ seg ∈ createSmartSubtitles s d, seg.start ≤ seg.endTime :=
  ⟨mkSegments_chain (chunksOf s) (cleanText s).length d 0,
    fun seg hs => mkSegments_start_le_end (chunksOf s) (cleanText s).length d
      (le_of_lt hd) 0 seg hs⟩

/-- C5 witness: instantiation on the concrete test vector. -/
theorem C5_witness :
    List.Chain' (fun a b => a.endTime = b.start) (createSmartSubtitles exText 14) ∧
    ∀ seg ∈ createSmartSubtitles exText 14, seg.start ≤ seg.endTime :=
  C5_contiguous exText 14 (by decide) (by norm_num)

/-- C6: every chunk produced by the greedy pass holds at most 6 words,
and every chunk except possibly the final one holds at least 2 words. -/
theorem C6_chunk_word_bounds (s : List Char) :
    (∀ c ∈ chunksOf s, wordCount c ≤ 6) ∧
    (∀ c ∈ (chunksOf s).dropLast, 2 ≤ wordCount c) := by
  have hfree := wordsOf_space_free s
  have hb := chunkLoopG_bounds (wordsOf s) [] [] (by simp) (by simp)
  have hflat : (chunkGroupsOf s).flatten = wordsOf s := by
    have := chunkLoopG_flatten (wordsOf s) [] []
    simpa [chunkGroupsOf] using this
  have hgw : ∀ g ∈ chunkGroupsOf s, ∀ w ∈ g, ∀ c ∈ w, c ≠ spaceChar := by
    intro g hg w hw
    have hmem : w ∈ (chunkGroupsOf s).flatten := List.mem_flatten.mpr ⟨g, hg, hw⟩
    rw [hflat] at hmem
    exact hfree w hmem
  have hcount : ∀ g ∈ chunkGroupsOf s, wordCount (joinWords g) = g.length := by
    intro g hg
    have h1 := (hb.1 g hg).1
    exact wordCount_joinWords g (by intro he; rw [he] at h1; simp at h1) (hgw g hg)
  rw [chunksOf_eq_ghost]
  constructor
  · intro c hc
    obtain ⟨g, hg, rfl⟩ := List.mem_map.mp hc
    rw [hcount g hg]
    exact (hb.1 g hg).2
  · intro c hc
    rw [← List.map_dropLast] at hc
    obtain ⟨g, hg, rfl⟩ := List.mem_map.mp hc
    have hgmem : g ∈ chunkGroupsOf s := (List.dropLast_sublist _).subset hg
    rw [hcount g hgmem]
    exact hb.2 g hg

/-- C7: the source's chunk-closing rule coincides with the spec's rule
(natural break at 2+ words with length over 25 or trailing sentence
punctuation, otherwise forced break on reaching 6 words, accumulator
reset on close, trailing accumulator closed at the end): the two
chunkers agree on every input text. -/
theorem C7_closing_rule (s : List Char) : chunksOf s = chunksSpecOf s :=
  chunkLoop_eq_spec (wordsOf s) [] [] (by simp)

/-- C8: the audio duration estimator divides the PCM byte count by
`48000 = sampleRate * channels * bytesPerSample` (24000 Hz, mono,
16-bit); 48000 bytes give exactly 1 second, 0 bytes give 0, and
96000 bytes give 2 seconds. -/
theorem C8_duration_estimator :
    (∀ n : ℕ, audioDurationSeconds n = (n : ℚ) / ((24000 * 1 * 2 : ℕ) : ℚ)) ∧
    audioDurationSeconds 48000 = 1 ∧
    audioDurationSeconds 0 = 0 ∧
    audioDurationSeconds 96000 = 2 := by
  refine ⟨fun n => ?_, by norm_num [audioDurationSeconds], by norm_num [audioDurationSeconds],
    by norm_num [audioDurationSeconds]⟩
  norm_num [audioDurationSeconds]

/-- C9: the claim that the RIFF chunk-length field equals
`36 + dataLength` for EVERY non-negative `dataLength` is FALSE:
`setUint32` wraps modulo `2 ^ 32`, so at `dataLength = 4294967260`
(that is `2 ^ 32 - 36`) the stored field is 0. -/
theorem C9_counterexample :
    readU32le (createWavHeader 4294967260 24000 1 16) 4 = 0 ∧
    36 + 4294967260 ≠ 0 := by
  constructor
  · rw [createWavHeader_default_eq]
    show (36 + 4294967260) % 256 + 256 * ((36 + 4294967260) / 256 % 256) +
      65536 * ((36 + 4294967260) / 65536 % 256) +
      16777216 * ((36 + 4294967260) / 16777216 % 256) = 0
    norm_num
  · norm_num

/-- C9 (amended): under the default parameters (24000 Hz, mono,
16-bit) the header is 44 bytes; the RIFF chunk-length field at offset
4 stores `(36 + dataLength) mod 2 ^ 32`, the data chunk-length field
at offset 40 stores `dataLength mod 2 ^ 32`, and the byte-rate field
at offset 28 stores `sampleRate * numChannels * (bitsPerSample / 8)`
(= 48000). -/
theorem C9_amended_header_fields (n : ℕ) :
    (createWavHeader n 24000 1 16).length = 44 ∧
    readU32le (createWavHeader n 24000 1 16) 4 = (36 + n) % 2 ^ 32 ∧
    readU32le (createWavHeader n 24000 1 16) 40 = n % 2 ^ 32 ∧
    readU32le (createWavHeader n 24000 1 16) 28 = 24000 * 1 * (16 / 8) := by
  refine ⟨?_, ?_, ?_, ?_⟩
  · rw [createWavHeader_default_eq]; rfl
  · rw [createWavHeader_default_eq]
    show (36 + n) % 256 + 256 * ((36 + n) / 256 % 256) + 65536 * ((36 + n) / 65536 % 256) +
      16777216 * ((36 + n) / 16777216 % 256) = (36 + n) % 2 ^ 32
    omega
  · rw [createWavHeader_default_eq]
    show n % 256 + 256 * (n / 256 % 256) + 65536 * (n / 65536 % 256) +
      16777216 * (n / 16777216 % 256) = n % 2 ^ 32
    omega
  · rw [createWavHeader_default_eq]
    show 128 + 256 * 187 + 65536 * 0 + 16777216 * 0 = 24000 * 1 * (16 / 8)
    norm_num

/-- C10: for every input text and duration the segmenter returns at
least one segment; when the input normalizes to the empty string it
returns exactly one segment whose text is the empty string (splitting
the empty normalized string on spaces yields one empty word). -/
theorem C10_always_nonempty (s : List Char) (d : ℚ) :
    createSmartSubtitles s d ≠ [] ∧
    (cleanText s = [] → (createSmartSubtitles s d).map SubtitleSegment.text = [[]]) := by
  constructor
  · intro hnil
    have := congrArg (List.map SubtitleSegment.text) hnil
    rw [show (createSmartSubtitles s d).map SubtitleSegment.text = chunksOf s from
      mkSegments_map_text _ _ _ _] at this
    exact chunksOf_ne_nil s (by simpa using this)
  · intro hempty
    have hsw : splitWs s = [] := splitWs_of_cleanText_nil s hempty
    rw [show (createSmartSubtitles s d).map SubtitleSegment.text = chunksOf s from
      mkSegments_map_text _ _ _ _]
    unfold chunksOf wordsOf
    rw [hsw]
    decide

/-- C10 witness: instantiation on the whitespace-only test vector,
with the inner hypothesis discharged. -/
theorem C10_witness :
    createSmartSubtitles exBlank 5 ≠ [] ∧
    (createSmartSubtitles exBlank 5).map SubtitleSegment.text = [[]] :=
  ⟨(C10_always_nonempty exBlank 5).1, (C10_always_nonempty exBlank 5).2 (by decide)⟩

end Claims
